import Mathlib

/-!
Shallow embedding of the test-assertion / mock-tracking / lifecycle engine
specified by this repository's notes (Jest learning notebook).  The repository
contains no implementation of the engine itself, only documentation and
example tests; every definition below is therefore modelled from the spec
(and from the behavior documented in the notes, e.g. the lifecycle ordering
trace in Note-01.md), as faithfully as the spec's words allow.
-/

namespace TestEngine

/-- Modelled from the spec: an error object carried by `throw`/`reject`
(the engine inspects an error's kind and its message). -/
structure ErrObj where
  kind : String
  message : String
deriving DecidableEq, Repr

/-- Modelled from the spec: a structured regular-expression-equivalent pattern,
restricted to the literal-body fragment with anchored/unanchored and
case-sensitivity flags actually exercised by the source examples
(`/I/`, `/stop/`, `/JDK/`, `/^...$/`). -/
structure Pattern where
  body : String
  anchorStart : Bool
  anchorEnd : Bool
  ignoreCase : Bool
deriving DecidableEq, Repr

/-- Modelled from the spec: the opaque values the engine manipulates.
`undefinedV` (absent) is distinct from `nullV`; `nanV` models not-a-number;
`seqV` models sequences/arrays, `mapV` models mapping objects with string keys;
`thunkV o` models a zero-argument callable that throws `e` when `o = some e`
and returns normally otherwise (only its throwing behavior is ever inspected
by a matcher); `errV` is a raised/rejection error value; `errClassV k` stands
for an error-kind used as a `throwsWithCondition` condition; `patternV` a
pattern value. -/
inductive Val where
  | undefinedV : Val
  | nullV : Val
  | nanV : Val
  | boolV : Bool → Val
  | numV : ℚ → Val
  | strV : String → Val
  | seqV : List Val → Val
  | mapV : List (String × Val) → Val
  | thunkV : Option ErrObj → Val
  | errV : ErrObj → Val
  | errClassV : String → Val
  | patternV : Pattern → Val

/-- First-match lookup of a key in a mapping's entry list. -/
def lookupKey (k : String) : List (String × Val) → Option Val
  | [] => none
  | kv :: rest => if kv.1 = k then some kv.2 else lookupKey k rest

/-- Does the key `k` not occur in the entry list? -/
def keyFresh (k : String) (l : List (String × Val)) : Bool :=
  l.all (fun kv => kv.1 ≠ k)

/-- All keys of the entry list are pairwise distinct (real mapping objects
never carry duplicate keys). -/
def nodupKeys : List (String × Val) → Bool
  | [] => true
  | kv :: rest => keyFresh kv.1 rest && nodupKeys rest

/-- Does every entry key of `m2` occur among the keys of `m1`? -/
def keysIncluded (m2 m1 : List (String × Val)) : Bool :=
  m2.all (fun kv => (lookupKey kv.1 m1).isSome)

mutual

def deepEq : Val → Val → Bool
  | .undefinedV, .undefinedV => true
  | .nullV, .nullV => true
  | .nanV, .nanV => true
  | .boolV a, .boolV b => a == b
  | .numV a, .numV b => a == b
  | .strV a, .strV b => a == b
  | .seqV xs, .seqV ys => deepEqList xs ys
  | .mapV m1, .mapV m2 => deepEqEntries m1 m2 && keysIncluded m2 m1
  | .thunkV a, .thunkV b => a == b
  | .errV a, .errV b => a == b
  | .errClassV a, .errClassV b => a == b
  | .patternV a, .patternV b => a == b
  | _, _ => false
termination_by a b => sizeOf a + sizeOf b
decreasing_by
  all_goals simp_wf
  all_goals omega

def deepEqList : List Val → List Val → Bool
  | [], [] => true
  | x :: xs, y :: ys => deepEq x y && deepEqList xs ys
  | _, _ => false
termination_by xs ys => sizeOf xs + sizeOf ys
decreasing_by
  all_goals simp_wf
  all_goals omega

def deepEqEntries : List (String × Val) → List (String × Val) → Bool
  | [], _ => true
  | kv :: rest, m2 =>
    (match h : lookupKey kv.1 m2 with
     | some v => deepEq kv.2 v
     | none => false) && deepEqEntries rest m2
termination_by m1 m2 => sizeOf m1 + sizeOf m2
decreasing_by
  all_goals simp_wf
  all_goals try omega
  · have hlk : ∀ (l : List (String × Val)) (w : Val),
        lookupKey kv.1 l = some w → sizeOf w < sizeOf l := by
      intro l
      induction l with
      | nil => intro w hw; simp [lookupKey] at hw
      | cons kv' rest' ih =>
        intro w hw
        simp only [lookupKey] at hw
        by_cases hk : kv'.1 = kv.1
        · simp [hk] at hw
          subst hw
          have : sizeOf kv'.2 < sizeOf kv' := by
            obtain ⟨a, b⟩ := kv'
            simp
          simp
          omega
        · simp [hk] at hw
          have := ih w hw
          simp
          omega
    have := hlk m2 v h
    obtain ⟨a, b⟩ := kv
    simp at *
    omega

end


mutual

def WFVal : Val → Bool
  | .seqV xs => WFList xs
  | .mapV m => nodupKeys m && WFEntries m
  | _ => true

def WFList : List Val → Bool
  | [] => true
  | x :: xs => WFVal x && WFList xs

def WFEntries : List (String × Val) → Bool
  | [] => true
  | kv :: rest => WFVal kv.2 && WFEntries rest

end

/-- Strict (identity) equality, per the spec: primitives compare by value
(`NaN` is never strictly equal to anything, itself included); composite
values (sequences, mappings, callables, errors, patterns) compare by
reference identity, modelled here as `false` since two reference-distinct
literals are never identical and the spec's claims only exercise primitives. -/
def strictEq : Val → Val → Bool
  | .undefinedV, .undefinedV => true
  | .nullV, .nullV => true
  | .nanV, _ => false
  | .boolV a, .boolV b => a == b
  | .numV a, .numV b => a == b
  | .strV a, .strV b => a == b
  | _, _ => false

/-- Truthiness under the language's coercion rules; the falsy set is exactly
false, zero, the empty string, null, absent/undefined and not-a-number. -/
def truthy : Val → Bool
  | .undefinedV => false
  | .nullV => false
  | .nanV => false
  | .boolV b => b
  | .numV q => q != 0
  | .strV s => s != ""
  | _ => true

/-- Does `l` start with the segment `p`? -/
def startsWithL : List Char → List Char → Bool
  | _, [] => true
  | [], _ :: _ => false
  | a :: as, b :: bs => a == b && startsWithL as bs

/-- Does `l` contain the contiguous segment `p` somewhere? -/
def containsSeg (l p : List Char) : Bool :=
  startsWithL l p ||
    match l with
    | [] => false
    | _ :: rest => containsSeg rest p

/-- Does the string `hay` contain `needle` as a substring? -/
def strContainsB (hay needle : String) : Bool :=
  containsSeg hay.toList needle.toList

/-- Lower-case a string character-wise (for case-insensitive matching). -/
def lowerStr (s : String) : String :=
  s.map Char.toLower

/-- Modelled from the spec: pattern matching with anchored/unanchored and
case-sensitivity flags; unanchored matching means the pattern body matches
some substring of the subject. -/
def matchPattern (p : Pattern) (s : String) : Bool :=
  let hay := if p.ignoreCase then lowerStr s else s
  let pat := if p.ignoreCase then lowerStr p.body else p.body
  match p.anchorStart, p.anchorEnd with
  | true, true => hay == pat
  | true, false => startsWithL hay.toList pat.toList
  | false, true => startsWithL hay.toList.reverse pat.toList.reverse
  | false, false => containsSeg hay.toList pat.toList

/-- Modelled from the spec: the matcher-name enumeration of the Value Matcher
Engine; `closeTo` carries its optional precision (default 2 when omitted). -/
inductive MatcherName where
  | equalsStrict : MatcherName
  | equalsDeep : MatcherName
  | isNull : MatcherName
  | isUndefinedOrAbsent : MatcherName
  | isDefinedOrPresent : MatcherName
  | isTruthy : MatcherName
  | isFalsy : MatcherName
  | gt : MatcherName
  | gte : MatcherName
  | lt : MatcherName
  | lte : MatcherName
  | closeTo : Option Nat → MatcherName
  | matchesPattern : MatcherName
  | containsElement : MatcherName
  | throwsWithCondition : MatcherName
deriving DecidableEq, Repr

/-- A matcher invoked on operand types it cannot support signals a usage
error, distinct from an assertion failure. -/
structure MatcherTypeError where
  matcher : MatcherName
  detail : String
deriving DecidableEq, Repr

/-- Outcome of one assertion: pass/fail plus a human-readable message
(computed only on failure; empty on the passing path). -/
structure Assertion where
  passed : Bool
  message : String
deriving DecidableEq, Repr

/-- Minimal value serialization for failure messages (the spec treats the
serialization routine as an external pluggable collaborator, so composite
values are rendered shallowly). -/
def serializeVal : Val → String
  | .undefinedV => "undefined"
  | .nullV => "null"
  | .nanV => "NaN"
  | .boolV b => cond b "true" "false"
  | .numV q => toString q
  | .strV s => "\"" ++ s ++ "\""
  | .seqV _ => "[Array]"
  | .mapV _ => "[Object]"
  | .thunkV _ => "[Function]"
  | .errV e => "Error<" ++ e.kind ++ ">: " ++ e.message
  | .errClassV k => "ErrorKind<" ++ k ++ ">"
  | .patternV p => "Pattern<" ++ p.body ++ ">"

/-- Printable name of a matcher, for failure messages. -/
def matcherLabel : MatcherName → String
  | .equalsStrict => "equalsStrict"
  | .equalsDeep => "equalsDeep"
  | .isNull => "isNull"
  | .isUndefinedOrAbsent => "isUndefinedOrAbsent"
  | .isDefinedOrPresent => "isDefinedOrPresent"
  | .isTruthy => "isTruthy"
  | .isFalsy => "isFalsy"
  | .gt => "gt"
  | .gte => "gte"
  | .lt => "lt"
  | .lte => "lte"
  | .closeTo _ => "closeTo"
  | .matchesPattern => "matchesPattern"
  | .containsElement => "containsElement"
  | .throwsWithCondition => "throwsWithCondition"

/-- Failure message: includes matcher name, serialized actual and expected,
and the negation state. -/
def mkMessage (actual : Val) (m : MatcherName) (expected : Val) (negated : Bool) : String :=
  "expected " ++ serializeVal actual ++ (cond negated " not" "") ++ " to satisfy " ++
    matcherLabel m ++ " " ++ serializeVal expected

/-- Is the value numeric (a number or not-a-number)? -/
def isNumeric : Val → Bool
  | .numV _ => true
  | .nanV => true
  | _ => false

/-- Ordered comparison helper: `NaN` compares false against everything;
real numbers compare by the given rational comparison. -/
def numCompare (cmp : ℚ → ℚ → Bool) : Val → Val → Bool
  | .numV a, .numV b => cmp a b
  | _, _ => false

/-- Does a raised error satisfy a throw-condition?  Absent condition: any
error counts; a string condition must be a substring of the error message;
a pattern condition must match the message; an error-kind condition must
equal the error's kind. -/
def errMatches (e : ErrObj) : Val → Option Bool
  | .undefinedV => some true
  | .strV s => some (strContainsB e.message s)
  | .patternV p => some (matchPattern p e.message)
  | .errClassV k => some (e.kind == k)
  | _ => none

/-- Modelled from the spec: the raw verdict of a single matcher evaluation
(before negation is applied).  Matchers that require particular operand
types fail closed with a `MatcherTypeError` instead of coercing. -/
def rawEval (actual : Val) (m : MatcherName) (expected : Val) :
    Except MatcherTypeError Bool :=
  match m with
  | .equalsStrict => .ok (strictEq actual expected)
  | .equalsDeep => .ok (deepEq actual expected)
  | .isNull => .ok (match actual with | .nullV => true | _ => false)
  | .isUndefinedOrAbsent => .ok (match actual with | .undefinedV => true | _ => false)
  | .isDefinedOrPresent => .ok (match actual with | .undefinedV => false | _ => true)
  | .isTruthy => .ok (truthy actual)
  | .isFalsy => .ok (!truthy actual)
  | .gt =>
    if isNumeric actual && isNumeric expected then
      .ok (numCompare (fun a b => a > b) actual expected)
    else .error ⟨m, "both operands must be numeric"⟩
  | .gte =>
    if isNumeric actual && isNumeric expected then
      .ok (numCompare (fun a b => a ≥ b) actual expected)
    else .error ⟨m, "both operands must be numeric"⟩
  | .lt =>
    if isNumeric actual && isNumeric expected then
      .ok (numCompare (fun a b => a < b) actual expected)
    else .error ⟨m, "both operands must be numeric"⟩
  | .lte =>
    if isNumeric actual && isNumeric expected then
      .ok (numCompare (fun a b => a ≤ b) actual expected)
    else .error ⟨m, "both operands must be numeric"⟩
  | .closeTo prec =>
    if isNumeric actual && isNumeric expected then
      .ok (numCompare (fun a b => |a - b| < 1 / 10 ^ prec.getD 2 / 2) actual expected)
    else .error ⟨m, "both operands must be numeric"⟩
  | .matchesPattern =>
    match actual, expected with
    | .strV s, .patternV p => .ok (matchPattern p s)
    | _, _ => .error ⟨m, "requires a string actual and a pattern expected"⟩
  | .containsElement =>
    match actual with
    | .seqV xs => .ok (xs.any (fun x => deepEq x expected))
    | _ => .error ⟨m, "requires a sequence or set-like actual"⟩
  | .throwsWithCondition =>
    match actual with
    | .thunkV none => .ok false
    | .thunkV (some e) =>
      match errMatches e expected with
      | some b => .ok b
      | none => .error ⟨m, "unsupported throw-condition"⟩
    | .errV e =>
      match errMatches e expected with
      | some b => .ok b
      | none => .error ⟨m, "unsupported throw-condition"⟩
    | _ => .error ⟨m, "requires a zero-argument callable (or error) actual"⟩

/-- Contract of the Value Matcher Engine: evaluate one assertion.  The
`negated` flag inverts only the final pass/fail verdict, never the raw
evaluation; a `MatcherTypeError` is raised identically under either flag. -/
def evaluate (actual : Val) (m : MatcherName) (expected : Val) (negated : Bool) :
    Except MatcherTypeError Assertion :=
  (rawEval actual m expected).map fun raw =>
    let p := if negated then !raw else raw
    ⟨p, if p then "" else mkMessage actual m expected negated⟩


/-- Modelled from the spec: a not-yet-settled asynchronous result; exactly
the three states pending / fulfilled(value) / rejected(error). -/
inductive DeferredValue where
  | pending : DeferredValue
  | fulfilled : Val → DeferredValue
  | rejected : ErrObj → DeferredValue

/-- Result of one call through a tracked callable: a plain return, a raised
error, or an already-settled deferred (scripted resolve/reject behaviors do
not actually suspend). -/
inductive CallResult where
  | ret : Val → CallResult
  | thr : ErrObj → CallResult
  | deferred : DeferredValue → CallResult

/-- Modelled from the spec: the five scripted behaviors a MockHandle can
queue — return value, throw error, resolve with value, reject with value,
invoke custom function. -/
inductive Behavior where
  | returnValue : Val → Behavior
  | throwError : ErrObj → Behavior
  | resolveWith : Val → Behavior
  | rejectWith : ErrObj → Behavior
  | invokeFn : (List Val → CallResult) → Behavior

/-- Execute one scripted behavior on the given arguments. -/
def execBehavior (b : Behavior) (args : List Val) : CallResult :=
  match b with
  | .returnValue v => .ret v
  | .throwError e => .thr e
  | .resolveWith v => .deferred (.fulfilled v)
  | .rejectWith e => .deferred (.rejected e)
  | .invokeFn f => f args

/-- One entry per invocation of a tracked callable: the arguments received,
the outcome (return value / thrown error / deferred), and the invocation
index. -/
structure MockRecord where
  arguments : List Val
  outcome : CallResult
  index : Nat

/-- Modelled from the spec: a MockHandle wrapping an optionally absent
original callable, with append-only invocation history, a FIFO queue of
scripted behaviors, an optional permanent override, and the restoration
flag. -/
structure MockHandle where
  invocations : List MockRecord
  behaviorQueue : List Behavior
  permanentOverride : Option Behavior
  originalRef : Option (List Val → CallResult)
  isRestored : Bool

/-- `create(original?)`: a fresh handle with empty history and no scripted
behavior. -/
def create (original : Option (List Val → CallResult)) : MockHandle :=
  ⟨[], [], none, original, false⟩

/-- Modelled from the spec: `invoke(handle, args)`.  A restored handle
bypasses tracking entirely and calls the original directly (no-op returning
undefined when absent).  Otherwise a MockRecord capturing the arguments is
appended and behavior resolves in priority order: front of the behavior
queue first (the front entry is retained when it is the last one and no
permanent override is set, so the last scripted behavior repeats
indefinitely), then the permanent override, then delegation to the original
(whose outcome is recorded), else return undefined. -/
def invoke (h : MockHandle) (args : List Val) : MockHandle × CallResult :=
  if h.isRestored then
    (h, match h.originalRef with
        | some f => f args
        | none => .ret .undefinedV)
  else
    let step : CallResult × List Behavior :=
      match h.behaviorQueue with
      | b :: rest =>
        (execBehavior b args,
         if rest.isEmpty && h.permanentOverride.isNone then [b] else rest)
      | [] =>
        match h.permanentOverride with
        | some b => (execBehavior b args, [])
        | none =>
          match h.originalRef with
          | some f => (f args, [])
          | none => (.ret .undefinedV, [])
    let entry : MockRecord := ⟨args, step.1, h.invocations.length⟩
    ({h with invocations := h.invocations ++ [entry], behaviorQueue := step.2}, step.1)

/-- `restore(handle)`: sets `isRestored` and nothing else; restoring an
already-restored handle is a no-op, not an error. -/
def restore (h : MockHandle) : MockHandle :=
  {h with isRestored := true}

/-- Mode of the Async Assertion Resolver. -/
inductive Mode where
  | direct : Mode
  | resolves : Mode
  | rejects : Mode

/-- Outcome of awaiting a deferred under the Async Assertion Resolver: a
matcher evaluation, a propagated rejection (direct mode), or a timeout on a
deferred that never settles. -/
inductive ResolverOutcome where
  | evaluated : Except MatcherTypeError Assertion → ResolverOutcome
  | rejectionPropagated : ErrObj → ResolverOutcome
  | timedOut : ResolverOutcome

/-- Modelled from the spec: `awaitAndEvaluate(deferred, matcherName,
expected, negated, mode)`.  `direct` propagates a rejection as the test's
failure; `resolves` fails with a message embedding the rejection reason when
the deferred rejects, else delegates to the Value Matcher Engine on the
fulfilled value; `rejects` is the mirror — it succeeds only on rejection and
evaluates the matcher against the rejection reason.  A deferred that never
settles times out. -/
def awaitAndEvaluate (d : DeferredValue) (m : MatcherName) (expected : Val)
    (negated : Bool) (mode : Mode) : ResolverOutcome :=
  match mode, d with
  | _, .pending => .timedOut
  | .direct, .fulfilled v => .evaluated (evaluate v m expected negated)
  | .direct, .rejected e => .rejectionPropagated e
  | .resolves, .fulfilled v => .evaluated (evaluate v m expected negated)
  | .resolves, .rejected e =>
    .evaluated (.ok ⟨false, "expected fulfillment but observed rejection: " ++ e.message⟩)
  | .rejects, .rejected e => .evaluated (evaluate (.errV e) m expected negated)
  | .rejects, .fulfilled v =>
    .evaluated (.ok ⟨false, "expected rejection but observed fulfillment: " ++ serializeVal v⟩)

/-!
Modelled from the spec: the Lifecycle Scheduler's scope tree.  A scope
holds its four ordered hook lists (hooks are modelled as the event labels
they emit) and an ordered list of children; a child is a test leaf (label
plus whether its body passes) or a nested scope.
-/

mutual

inductive Scope where
  | mk : List String → List String → List String → List String → List Item → Scope

inductive Item where
  | testI : String → Bool → Item
  | scopeI : Scope → Item

end

/-- The `beforeAll` hooks of a scope. -/
def Scope.beforeAllH : Scope → List String
  | .mk ba _ _ _ _ => ba

/-- The `beforeEach` hooks of a scope. -/
def Scope.beforeEachH : Scope → List String
  | .mk _ be _ _ _ => be

/-- The `afterEach` hooks of a scope. -/
def Scope.afterEachH : Scope → List String
  | .mk _ _ ae _ _ => ae

/-- The `afterAll` hooks of a scope. -/
def Scope.afterAllH : Scope → List String
  | .mk _ _ _ aa _ => aa

/-- The ordered children of a scope. -/
def Scope.children : Scope → List Item
  | .mk _ _ _ _ cs => cs

/-!
Modelled from the spec (and from the documented execution-order trace in
Note-01.md): run a scope within an ambient beforeEach chain `bes`
(outermost-first) and afterEach chain `aes` (innermost-first).  A scope's
`beforeAll` hooks run once on entering the scope — i.e. immediately before
the first test under it and after everything declared ahead of it — and its
`afterAll` hooks run once after its last test, innermost first.  Around each
test leaf the applicable `beforeEach` hooks run outermost-first and the
`afterEach` hooks innermost-first, whether or not the body passes.
-/

mutual

def runScope (bes aes : List String) : Scope → List String
  | .mk ba be ae aa children =>
    ba ++ runItems (bes ++ be) (ae ++ aes) children ++ aa

def runItems (bes aes : List String) : List Item → List String
  | [] => []
  | i :: rest => runItem bes aes i ++ runItems bes aes rest

def runItem (bes aes : List String) : Item → List String
  | .testI name _ => bes ++ [name] ++ aes
  | .scopeI s => runScope bes aes s

end

/-- A whole run: the root scope with empty ambient hook chains. -/
def runRoot (s : Scope) : List String :=
  runScope [] [] s

/-- Build a chain of nested scopes (each carrying only beforeEach/afterEach
hooks, outermost pair first) around a single innermost item. -/
def buildNest : List (List String × List String) → Item → Item
  | [], i => i
  | (be, ae) :: rest, i => .scopeI (.mk [] be ae [] [buildNest rest i])

/-- Exclusive execution modifiers on a registered test. -/
inductive Marker where
  | plain : Marker
  | only : Marker
  | skip : Marker
deriving DecidableEq, Repr

/-- A registered test with its modifier. -/
structure RegTest where
  name : String
  marker : Marker
deriving DecidableEq, Repr

/-- Per-test report entry: did the test execute, or was it reported as
skipped? -/
structure RunEntry where
  name : String
  ran : Bool
deriving DecidableEq, Repr

/-- Modelled from the spec: the exclusive-execution filter.  If any
registered test carries the exclusive-only marker, exactly the marked tests
execute and every other sibling is reported as skipped; a skip-marked test
never runs. -/
def runFiltered (ts : List RegTest) : List RunEntry :=
  let hasOnly := ts.any (fun t => t.marker == Marker.only)
  ts.map fun t =>
    ⟨t.name,
     match t.marker with
     | .skip => false
     | .only => true
     | .plain => !hasOnly⟩


/-- The IEEE-754 double nearest to 0.1+0.2 (the exact rational value of the
double sum), used by the floating-point boundary scenario of the spec. -/
def jsSum : ℚ := 5404319552844596 / 2 ^ 54

/-- The IEEE-754 double nearest to 0.3 (its exact rational value). -/
def jsPointThree : ℚ := 5404319552844595 / 2 ^ 54


theorem lookupKey_isSome_of_mem (k : String) (v : Val) :
    ∀ (l : List (String × Val)), (k, v) ∈ l → (lookupKey k l).isSome = true := by
  intro l
  induction l with
  | nil => intro h; simp at h
  | cons kv rest ih =>
    intro h
    simp only [lookupKey]
    by_cases hk : kv.1 = k
    · simp [hk]
    · simp [hk]
      rcases List.mem_cons.mp h with h1 | h2
      · rw [← h1] at hk; simp at hk
      · exact ih h2

theorem lookupKey_eq_of_mem_nodup (k : String) (v : Val) :
    ∀ (l : List (String × Val)), nodupKeys l = true → (k, v) ∈ l → lookupKey k l = some v := by
  intro l
  induction l with
  | nil => intro _ h; simp at h
  | cons kv rest ih =>
    intro hnd h
    simp only [nodupKeys, Bool.and_eq_true] at hnd
    simp only [lookupKey]
    rcases List.mem_cons.mp h with h1 | h2
    · rw [← h1]; simp
    · by_cases hk : kv.1 = k
      · exfalso
        have hfresh := hnd.1
        simp only [keyFresh, List.all_eq_true] at hfresh
        have := hfresh (k, v) h2
        simp at this
        rw [hk] at this
        exact this rfl
      · simp [hk]
        exact ih hnd.2 h2

theorem WFList_mem {xs : List Val} {x : Val} (hw : WFList xs = true) (hx : x ∈ xs) :
    WFVal x = true := by
  induction xs with
  | nil => simp at hx
  | cons y ys ih =>
    rw [WFList, Bool.and_eq_true] at hw
    rcases List.mem_cons.mp hx with h1 | h2
    · rw [h1]; exact hw.1
    · exact ih hw.2 h2

theorem WFEntries_mem {m : List (String × Val)} {kv : String × Val} (hw : WFEntries m = true)
    (hkv : kv ∈ m) : WFVal kv.2 = true := by
  induction m with
  | nil => simp at hkv
  | cons y ys ih =>
    rw [WFEntries, Bool.and_eq_true] at hw
    rcases List.mem_cons.mp hkv with h1 | h2
    · rw [h1]; exact hw.1
    · exact ih hw.2 h2

theorem deepEqList_of_refl : ∀ (xs : List Val), (∀ x ∈ xs, deepEq x x = true) →
    deepEqList xs xs = true := by
  intro xs h
  induction xs with
  | nil => rw [deepEqList]
  | cons y ys ih =>
    rw [deepEqList, Bool.and_eq_true]
    exact ⟨h y (List.mem_cons_self y ys), ih (fun x hx => h x (List.mem_cons_of_mem y hx))⟩

theorem deepEqEntries_of : ∀ (m1 m2 : List (String × Val)),
    (∀ kv ∈ m1, ∃ v, lookupKey kv.1 m2 = some v ∧ deepEq kv.2 v = true) →
    deepEqEntries m1 m2 = true := by
  intro m1 m2 h
  induction m1 with
  | nil => rw [deepEqEntries]
  | cons kv rest ih =>
    rw [deepEqEntries, Bool.and_eq_true]
    constructor
    · obtain ⟨v, hl, hd⟩ := h kv (List.mem_cons_self kv rest)
      split
      · rename_i v' heq
        rw [hl] at heq
        cases heq
        exact hd
      · rename_i heq
        rw [hl] at heq
        simp at heq
    · exact ih (fun kv' hkv' => h kv' (List.mem_cons_of_mem kv hkv'))

theorem keysIncluded_of : ∀ (m2 m1 : List (String × Val)),
    (∀ kv ∈ m2, (lookupKey kv.1 m1).isSome = true) → keysIncluded m2 m1 = true := by
  intro m2 m1 h
  rw [keysIncluded, List.all_eq_true]
  intro kv hkv
  simpa using h kv hkv

theorem one_le_sizeOf_val (v : Val) : 1 ≤ sizeOf v := by
  cases v <;> simp <;> omega

theorem deepEq_refl_aux : ∀ (n : Nat) (v : Val), sizeOf v ≤ n → WFVal v = true →
    deepEq v v = true := by
  intro n
  induction n with
  | zero =>
    intro v hs _
    have := one_le_sizeOf_val v
    omega
  | succ n ih =>
    intro v hs hw
    match v with
    | .undefinedV => rw [deepEq]
    | .nullV => rw [deepEq]
    | .nanV => rw [deepEq]
    | .boolV b => rw [deepEq]; simp
    | .numV q => rw [deepEq]; simp
    | .strV s => rw [deepEq]; simp
    | .thunkV o => rw [deepEq]; simp
    | .errV e => rw [deepEq]; simp
    | .errClassV s => rw [deepEq]; simp
    | .patternV p => rw [deepEq]; simp
    | .seqV xs =>
      rw [deepEq]
      rw [WFVal] at hw
      apply deepEqList_of_refl
      intro x hx
      have hsz := List.sizeOf_lt_of_mem hx
      have hsx : sizeOf (Val.seqV xs) = 1 + sizeOf xs := by simp
      exact ih x (by omega) (WFList_mem hw hx)
    | .mapV m =>
      rw [deepEq, Bool.and_eq_true]
      rw [WFVal, Bool.and_eq_true] at hw
      have hsm : sizeOf (Val.mapV m) = 1 + sizeOf m := by simp
      constructor
      · apply deepEqEntries_of
        intro kv hkv
        refine ⟨kv.2, lookupKey_eq_of_mem_nodup kv.1 kv.2 m hw.1 (by simpa using hkv), ?_⟩
        have hsz := List.sizeOf_lt_of_mem hkv
        have hkv2 : sizeOf kv.2 < sizeOf kv := by
          obtain ⟨a, b⟩ := kv
          simp
        exact ih kv.2 (by omega) (WFEntries_mem hw.2 hkv)
      · apply keysIncluded_of
        intro kv hkv
        exact lookupKey_isSome_of_mem kv.1 kv.2 m (by simpa using hkv)

theorem deepEq_refl (v : Val) (hw : WFVal v = true) : deepEq v v = true :=
  deepEq_refl_aux (sizeOf v) v (Nat.le_refl _) hw

theorem keyFresh_iff (k : String) (l : List (String × Val)) :
    keyFresh k l = true ↔ k ∉ l.map Prod.fst := by
  rw [keyFresh, List.all_eq_true]
  constructor
  · intro h hk
    obtain ⟨kv, hkv, hfst⟩ := List.mem_map.mp hk
    have := h kv hkv
    simp at this
    exact this hfst
  · intro h kv hkv
    simp
    intro hfst
    exact h (List.mem_map.mpr ⟨kv, hkv, hfst⟩)

theorem nodupKeys_iff (l : List (String × Val)) :
    nodupKeys l = true ↔ (l.map Prod.fst).Nodup := by
  induction l with
  | nil => simp [nodupKeys]
  | cons kv rest ih =>
    rw [nodupKeys, Bool.and_eq_true, List.map_cons, List.nodup_cons, ih, keyFresh_iff]

theorem nodupKeys_perm {m1 m2 : List (String × Val)} (hp : m1.Perm m2)
    (h : nodupKeys m1 = true) : nodupKeys m2 = true := by
  rw [nodupKeys_iff] at h ⊢
  exact h.perm (hp.map Prod.fst)

theorem deepEq_mapV_perm {m1 m2 : List (String × Val)} (hp : m1.Perm m2)
    (hnd : nodupKeys m1 = true) (hwf : WFEntries m1 = true) :
    deepEq (.mapV m1) (.mapV m2) = true := by
  rw [deepEq, Bool.and_eq_true]
  have hnd2 := nodupKeys_perm hp hnd
  constructor
  · apply deepEqEntries_of
    intro kv hkv
    refine ⟨kv.2, ?_, deepEq_refl kv.2 (WFEntries_mem hwf hkv)⟩
    exact lookupKey_eq_of_mem_nodup kv.1 kv.2 m2 hnd2 (by simpa using hp.subset hkv)
  · apply keysIncluded_of
    intro kv hkv
    exact lookupKey_isSome_of_mem kv.1 kv.2 m1 (by simpa using hp.symm.subset hkv)

theorem startsWithL_iff : ∀ (l p : List Char), startsWithL l p = true ↔ ∃ suf, l = p ++ suf := by
  intro l p
  induction p generalizing l with
  | nil => simp [startsWithL]
  | cons b bs ih =>
    cases l with
    | nil => simp [startsWithL]
    | cons a as =>
      rw [startsWithL, Bool.and_eq_true, ih]
      constructor
      · rintro ⟨hab, suf, hsuf⟩
        exact ⟨suf, by simp at hab; rw [hab, hsuf]; simp⟩
      · rintro ⟨suf, hsuf⟩
        simp at hsuf
        exact ⟨by simp [hsuf.1], suf, hsuf.2⟩

theorem containsSeg_iff : ∀ (l p : List Char), containsSeg l p = true ↔
    ∃ pre suf, l = pre ++ p ++ suf := by
  intro l p
  induction l with
  | nil =>
    rw [containsSeg]
    simp [startsWithL_iff]
  | cons a rest ih =>
    rw [containsSeg, Bool.or_eq_true, startsWithL_iff, ih]
    constructor
    · rintro (⟨suf, hsuf⟩ | ⟨pre, suf, h⟩)
      · exact ⟨[], suf, by simpa using hsuf⟩
      · exact ⟨a :: pre, suf, by simp [h]⟩
    · rintro ⟨pre, suf, h⟩
      cases pre with
      | nil => exact Or.inl ⟨suf, by simpa using h⟩
      | cons x pre' =>
        right
        refine ⟨pre', suf, ?_⟩
        simp at h ⊢
        exact h.2

theorem runItems_append (bes aes : List String) (l1 l2 : List Item) :
    runItems bes aes (l1 ++ l2) = runItems bes aes l1 ++ runItems bes aes l2 := by
  induction l1 with
  | nil => rw [runItems]; simp
  | cons i rest ih =>
    rw [List.cons_append, runItems, runItems, ih, List.append_assoc]

theorem runItem_buildNest : ∀ (ctx : List (List String × List String))
    (bes aes : List String) (i : Item),
    runItem bes aes (buildNest ctx i) =
      runItem (bes ++ (ctx.map Prod.fst).flatten)
        ((ctx.map Prod.snd).reverse.flatten ++ aes) i := by
  intro ctx
  induction ctx with
  | nil => intro bes aes i; simp [buildNest]
  | cons p rest ih =>
    intro bes aes i
    obtain ⟨be, ae⟩ := p
    rw [buildNest, runItem, runScope, runItems, runItems, ih]
    simp [List.flatten_append, List.append_assoc]


theorem invoke_restored_fst (h : MockHandle) (args : List Val) (hr : h.isRestored = true) :
    (invoke h args).1 = h := by
  simp [invoke, hr]

/-- C1 (counterexample): the claim quantifies over every MockHandle, but a
restored handle bypasses tracking entirely — invoking it appends no
MockRecord (the invocation history keeps its length instead of growing by
one), so "invoke first appends a MockRecord capturing the arguments" fails
on the restored handle obtained from `restore (create none)`. -/
theorem claim1_counterexample :
    (invoke (restore (create none)) []).1.invocations.length =
      (restore (create none)).invocations.length := by
  simp [invoke, restore, create]

/-- C1 (amended: restricted to handles that have not been restored): invoke
appends exactly one MockRecord capturing the arguments, the produced
outcome and the invocation index; behavior resolves by popping the front of
the behavior queue first, then the permanent override, then delegation to
the original (recorded), else undefined; only the front queue entry is
consumed per call, and a queue whose single remaining entry would be
exhausted keeps it (so the last scripted behavior repeats indefinitely)
unless a permanent override is set. -/
theorem claim1_invoke_contract (h : MockHandle) (args : List Val)
    (hr : h.isRestored = false) :
    (invoke h args).1.invocations =
      h.invocations ++ [⟨args, (invoke h args).2, h.invocations.length⟩]
    ∧ (∀ b rest, h.behaviorQueue = b :: rest → (invoke h args).2 = execBehavior b args)
    ∧ (∀ b, h.behaviorQueue = [] → h.permanentOverride = some b →
        (invoke h args).2 = execBehavior b args)
    ∧ (∀ f, h.behaviorQueue = [] → h.permanentOverride = none → h.originalRef = some f →
        (invoke h args).2 = f args)
    ∧ (h.behaviorQueue = [] → h.permanentOverride = none → h.originalRef = none →
        (invoke h args).2 = .ret .undefinedV)
    ∧ (∀ b, h.behaviorQueue = [b] → h.permanentOverride = none →
        (invoke h args).1.behaviorQueue = [b])
    ∧ (∀ b rest, h.behaviorQueue = b :: rest →
        (rest = [] → h.permanentOverride.isSome = true) →
        (invoke h args).1.behaviorQueue = rest) := by
  refine ⟨?_, ?_, ?_, ?_, ?_, ?_, ?_⟩
  · simp [invoke, hr]
  · intro b rest hq
    simp [invoke, hr, hq]
  · intro b hq ho
    simp [invoke, hr, hq, ho]
  · intro f hq ho hof
    simp [invoke, hr, hq, ho, hof]
  · intro hq ho hof
    simp [invoke, hr, hq, ho, hof]
  · intro b hq ho
    simp [invoke, hr, hq, ho]
  · intro b rest hq hrest
    simp [invoke, hr, hq]
    intro hre
    rcases hrest hre with hs
    intro hnone
    rw [hnone] at hs
    simp at hs

/-- C1 (witness): a concrete non-restored handle with one scripted
return-value behavior. -/
theorem claim1_invoke_contract_witness :
    (invoke ⟨[], [.returnValue (.numV 7)], none, none, false⟩ [.numV 3]).2 =
      execBehavior (.returnValue (.numV 7)) [.numV 3]
    ∧ (invoke ⟨[], [.returnValue (.numV 7)], none, none, false⟩ [.numV 3]).1.behaviorQueue =
      [.returnValue (.numV 7)] := by
  have h := claim1_invoke_contract ⟨[], [.returnValue (.numV 7)], none, none, false⟩
    [.numV 3] rfl
  exact ⟨h.2.1 _ _ rfl, h.2.2.2.2.2.1 _ rfl rfl⟩

/-- C2: restoring a MockHandle sets `isRestored`; every subsequent invoke
bypasses tracking entirely (the handle, its invocation history included, is
left unchanged — permanently, over any sequence of further calls) and calls
the original directly when present, a no-op returning undefined when
absent; restore is idempotent. -/
theorem claim2_restore_contract (h : MockHandle) (args : List Val) :
    (restore h).isRestored = true
    ∧ (invoke (restore h) args).1 = restore h
    ∧ (∀ f, h.originalRef = some f → (invoke (restore h) args).2 = f args)
    ∧ (h.originalRef = none → (invoke (restore h) args).2 = .ret .undefinedV)
    ∧ restore (restore h) = restore h
    ∧ (∀ argss : List (List Val),
        argss.foldl (fun hh a => (invoke hh a).1) (restore h) = restore h) := by
  refine ⟨rfl, invoke_restored_fst _ _ rfl, ?_, ?_, rfl, ?_⟩
  · intro f hf
    simp [invoke, restore, hf]
  · intro hf
    simp [invoke, restore, hf]
  · intro argss
    induction argss with
    | nil => rfl
    | cons a as ih =>
      rw [List.foldl_cons, invoke_restored_fst _ _ rfl]
      exact ih

/-- C2 (witness): a concrete spied handle (original present) and a concrete
pure mock (original absent). -/
theorem claim2_restore_contract_witness :
    (invoke (restore (create (some fun _ => .ret (.numV 42)))) [.numV 1]).2 =
      .ret (.numV 42)
    ∧ (invoke (restore (create none)) []).2 = .ret .undefinedV
    ∧ (invoke (restore (create (some fun _ => .ret (.numV 42)))) [.numV 1]).1 =
      restore (create (some fun _ => .ret (.numV 42))) := by
  refine ⟨?_, ?_, ?_⟩
  · exact (claim2_restore_contract (create (some fun _ => .ret (.numV 42))) [.numV 1]).2.2.1
      _ rfl
  · exact (claim2_restore_contract (create none) []).2.2.2.1 rfl
  · exact (claim2_restore_contract (create (some fun _ => .ret (.numV 42))) [.numV 1]).2.1

/-- C5: the `negated` flag inverts only the final pass/fail verdict of an
evaluation that succeeds, never the evaluation logic; a MatcherTypeError is
raised identically under either flag. -/
theorem claim5_negation (a : Val) (m : MatcherName) (e : Val) :
    (∀ r, evaluate a m e false = .ok r →
      ∃ r', evaluate a m e true = .ok r' ∧ r'.passed = !r.passed)
    ∧ (∀ err, evaluate a m e false = .error err ↔ evaluate a m e true = .error err) := by
  constructor
  · intro r hres
    cases hraw : rawEval a m e with
    | error err => simp [evaluate, hraw, Except.map] at hres
    | ok raw =>
      simp [evaluate, hraw, Except.map] at hres ⊢
      rw [← hres]
  · intro err
    cases hraw : rawEval a m e with
    | error e' => simp [evaluate, hraw, Except.map]
    | ok raw => simp [evaluate, hraw, Except.map]

/-- C5 (witness): inverting a passing strict-equality check at a concrete
input yields a failing one. -/
theorem claim5_negation_witness :
    (evaluate (.numV 2) .equalsStrict (.numV 2) true).map (fun r => r.passed) =
      .ok false := by
  obtain ⟨r', hr', hp⟩ :=
    (claim5_negation (.numV 2) .equalsStrict (.numV 2)).1 ⟨true, ""⟩ (by rfl)
  rw [hr']
  simp [Except.map, hp]


/-- C3: around a test leaf nested under any chain of scopes, the applicable
`beforeEach` hooks run immediately before the body in outermost-first order
(each scope's hooks in registration order) and the `afterEach` hooks
immediately after it in innermost-first order, whether or not the body
passes; in particular a root `beforeEach` R-before / `afterEach` R-after and
a nested `beforeEach` N-before / `afterEach` N-after around one nested test
produce exactly the observed order [R-before, N-before, test, N-after,
R-after]. -/
theorem claim3_hook_order :
    (∀ (bes aes : List String) (t : String) (b : Bool),
      runItem bes aes (.testI t b) = bes ++ [t] ++ aes)
    ∧ (∀ (ctx : List (List String × List String)) (t : String) (b : Bool),
      runItem [] [] (buildNest ctx (.testI t b)) =
        (ctx.map Prod.fst).flatten ++ [t] ++ (ctx.map Prod.snd).reverse.flatten)
    ∧ (∀ b : Bool,
      runRoot (.mk [] ["R-before"] ["R-after"] []
        [.scopeI (.mk [] ["N-before"] ["N-after"] [] [.testI "test" b])]) =
        ["R-before", "N-before", "test", "N-after", "R-after"]) := by
  refine ⟨fun bes aes t b => rfl, ?_, fun b => rfl⟩
  intro ctx t b
  rw [runItem_buildNest]
  simp [runItem]

/-- C9: a scope's hooks and tests are emitted strictly in declaration order,
so a nested scope's `beforeAll` (the first events of the nested scope's
trace) can only appear after every event — afterEach hooks included — of all
tests declared ahead of that scope; beforeAll is not run eagerly at the
start of the run but on reaching its scope.  The two-scope example of the
notes yields exactly the documented trace. -/
theorem claim9_beforeAll_lazy :
    (∀ (bes aes ba be ae aa : List String) (items1 items2 : List Item) (s : Scope),
      runScope bes aes (.mk ba be ae aa (items1 ++ .scopeI s :: items2)) =
        ba ++ runItems (bes ++ be) (ae ++ aes) items1 ++
          runScope (bes ++ be) (ae ++ aes) s ++
          runItems (bes ++ be) (ae ++ aes) items2 ++ aa)
    ∧ (∀ (bes aes : List String) (s : Scope),
      runScope bes aes s =
        s.beforeAllH ++
          runItems (bes ++ s.beforeEachH) (s.afterEachH ++ aes) s.children ++
          s.afterAllH)
    ∧ runRoot (.mk ["1 - beforeAll"] ["1 - beforeEach"] ["1 - afterEach"] ["1 - afterAll"]
        [.testI "1 - test" true,
         .scopeI (.mk ["2 - beforeAll"] ["2 - beforeEach"] ["2 - afterEach"] ["2 - afterAll"]
           [.testI "2 - test" true])]) =
      ["1 - beforeAll", "1 - beforeEach", "1 - test", "1 - afterEach",
       "2 - beforeAll", "1 - beforeEach", "2 - beforeEach", "2 - test",
       "2 - afterEach", "1 - afterEach", "2 - afterAll", "1 - afterAll"] := by
  refine ⟨?_, ?_, rfl⟩
  · intro bes aes ba be ae aa items1 items2 s
    rw [runScope, runItems_append, runItems, runItem]
    simp [List.append_assoc]
  · intro bes aes s
    cases s with
    | mk ba be ae aa children => rfl

/-- C4: for numeric operands the `closeTo` matcher passes exactly when
`abs(actual - expected) < 10^-precision / 2`, the precision defaulting to 2
when omitted; at the floating-point boundary, `closeTo` accepts the double
value of 0.1+0.2 against the double 0.3 at precision 2 while `equalsStrict`
rejects it. -/
theorem claim4_closeTo (a e : ℚ) (p : Nat) :
    rawEval (.numV a) (.closeTo (some p)) (.numV e) =
      .ok (decide (|a - e| < 1 / 10 ^ p / 2))
    ∧ rawEval (.numV a) (.closeTo none) (.numV e) =
      rawEval (.numV a) (.closeTo (some 2)) (.numV e)
    ∧ (evaluate (.numV jsSum) (.closeTo (some 2)) (.numV jsPointThree) false).map
      (fun r => r.passed) = .ok true
    ∧ (evaluate (.numV jsSum) .equalsStrict (.numV jsPointThree) false).map
      (fun r => r.passed) = .ok false := by
  refine ⟨?_, ?_, ?_, ?_⟩
  · simp [rawEval, isNumeric, numCompare]
  · simp [rawEval, isNumeric]
  · simp [evaluate, rawEval, isNumeric, numCompare, Except.map, jsSum, jsPointThree]
    rw [abs_of_pos (by norm_num)]
    norm_num
  · simp [evaluate, rawEval, strictEq, Except.map, jsSum, jsPointThree]
    norm_num

/-- C6: deep equality accepts two mapping values built from the same
key/value pairs regardless of key insertion order (and independently of any
object identity, which the embedding does not even represent): any
permutation of a duplicate-free, well-formed entry list passes
`equalsDeep`. -/
theorem claim6_deepEq_insertion_order (m1 m2 : List (String × Val)) (hp : m1.Perm m2)
    (hnd : nodupKeys m1 = true) (hwf : WFEntries m1 = true) :
    (evaluate (.mapV m1) .equalsDeep (.mapV m2) false).map (fun r => r.passed) =
      .ok true := by
  have hd := deepEq_mapV_perm hp hnd hwf
  simp [evaluate, rawEval, Except.map, hd]

/-- C6 (witness): the two-entry mapping of the notes' `toEqual` example,
with its insertion order reversed. -/
theorem claim6_deepEq_insertion_order_witness :
    (evaluate (.mapV [("one", .numV 1), ("two", .numV 2)]) .equalsDeep
      (.mapV [("two", .numV 2), ("one", .numV 1)]) false).map (fun r => r.passed) =
      .ok true :=
  claim6_deepEq_insertion_order _ _ (List.Perm.swap _ _ _) (by decide)
    (by simp [WFEntries, WFVal])

/-- C7: for a deferred that settles to rejected with message "boom", the
resolver in `rejects` mode evaluates `throwsWithCondition "boom"` against
the rejection reason and passes, while the identical call in `resolves`
mode produces a failed Assertion whose message states that fulfillment was
expected but rejection observed, with the rejection reason embedded. -/
theorem claim7_resolver (k : String) :
    awaitAndEvaluate (.rejected ⟨k, "boom"⟩) .throwsWithCondition (.strV "boom")
      false .rejects = .evaluated (.ok ⟨true, ""⟩)
    ∧ ∃ msg,
      awaitAndEvaluate (.rejected ⟨k, "boom"⟩) .throwsWithCondition (.strV "boom")
        false .resolves = .evaluated (.ok ⟨false, msg⟩)
      ∧ strContainsB msg "boom" = true
      ∧ strContainsB msg "rejection" = true := by
  refine ⟨rfl, "expected fulfillment but observed rejection: boom", rfl, by decide, by decide⟩

/-- C8: in any run where at least one registered test carries the
exclusive-only marker, exactly the marked tests execute and every other
sibling (unmarked or skip-marked) is reported as skipped. -/
theorem claim8_exclusive_only (ts : List RegTest)
    (h : ts.any (fun t => t.marker == Marker.only) = true) :
    runFiltered ts = ts.map (fun t => ⟨t.name, t.marker == Marker.only⟩) := by
  rw [runFiltered]
  simp only [h]
  apply List.map_congr_left
  intro t _
  cases hm : t.marker <;> simp [hm]

/-- C8 (witness): three registered tests of which exactly the first is
marked exclusive-only — only it runs; the other two are reported skipped. -/
theorem claim8_exclusive_only_witness :
    runFiltered [⟨"t1", .only⟩, ⟨"t2", .plain⟩, ⟨"t3", .plain⟩] =
      [⟨"t1", true⟩, ⟨"t2", false⟩, ⟨"t3", false⟩] := by
  rw [claim8_exclusive_only _ (by decide)]
  decide

/-- C10: a pattern without explicit anchors matches a string exactly when
its body occurs as a (contiguous) substring anywhere in the string — the
pattern need not cover the whole string; in particular pattern `stop`
matches "Christoph" while pattern `I` does not match "team". -/
theorem claim10_unanchored (s body : String) :
    ((evaluate (.strV s) .matchesPattern (.patternV ⟨body, false, false, false⟩)
        false).map (fun r => r.passed) = .ok true ↔
      ∃ pre suf, s.toList = pre ++ body.toList ++ suf)
    ∧ (evaluate (.strV "Christoph") .matchesPattern
        (.patternV ⟨"stop", false, false, false⟩) false).map (fun r => r.passed) = .ok true
    ∧ (evaluate (.strV "team") .matchesPattern
        (.patternV ⟨"I", false, false, false⟩) false).map (fun r => r.passed) = .ok false := by
  refine ⟨?_, by rfl, by rfl⟩
  rw [← containsSeg_iff]
  simp [evaluate, rawEval, matchPattern, Except.map]


end TestEngine
